import Mathlib

/-!
# Verification of the file-explorer desktop simulation

This file embeds the file-system model of `src/desktop-sim.tsx`
(classes `File`, `Directory`, `FSViewModel` and the helper `filepath`)
as a heap of items addressed by numeric identities, mirroring
JavaScript object identity, and proves the specified properties.

JavaScript's `localeCompare` string comparison is modelled as the
code-point lexicographic order on strings (the default-locale behaviour
on the ASCII names used by the program), a total preorder, which is all
the sorting contract relies on.
-/

namespace FileExplorer

/-- Object identity: each JS object is addressed by a numeric id. -/
abbrev Id := Nat

/-- The `type` tag of an `FSItem`: `"file"` or `"directory"`. -/
inductive FSKind where
  | file : FSKind
  | dir : FSKind
deriving DecidableEq, Repr

/-- The observable fields of a `File` / `Directory` object.
`File` objects carry `childIds = []` and a `deleted` flag that no code
path ever sets (the JS `File` class has no `deleted` property, so reading
it yields a falsy value, modelled as `false`). -/
structure Item where
  name : String
  kind : FSKind
  parent : Option Id
  deleted : Bool
  childIds : List Id
deriving DecidableEq, Repr

/-- The JS object heap: a partial map from identities to objects. -/
def Heap := Id → Option Item

/-- Update the object at `i` in place, a no-op when `i` is unallocated
(JS mutation always acts on an existing object). -/
def modifyItem (h : Heap) (i : Id) (f : Item → Item) : Heap :=
  fun j => if j = i then (h j).map f else h j

/-- `item.name`, with `""` for an unallocated id. -/
def nameOf (h : Heap) (i : Id) : String :=
  match h i with
  | some it => it.name
  | none => ""

/-- `item.type === "directory"`. -/
def isDirIn (h : Heap) (i : Id) : Bool :=
  match h i with
  | some it => it.kind = FSKind.dir
  | none => false

/-- `item.deleted` (falsy when the object is absent or a `File`). -/
def deletedIn (h : Heap) (i : Id) : Bool :=
  match h i with
  | some it => it.deleted
  | none => false

/-- `item.parent`. -/
def parentOf (h : Heap) (i : Id) : Option Id :=
  match h i with
  | some it => it.parent
  | none => none

/-- The private `_children` array (insertion order). -/
def childIdsOf (h : Heap) (i : Id) : List Id :=
  match h i with
  | some it => it.childIds
  | none => []

/-- Lexicographic comparison of character sequences: the model of the
string comparator `a.localeCompare(b) <= 0`. -/
def charListLe : List Char → List Char → Bool
  | [], _ => true
  | _ :: _, [] => false
  | a :: as, b :: bs => if a = b then charListLe as bs else decide (a < b)

/-- The comparator `(a, b) => a.name.localeCompare(b.name)` of the
`children` getter, as the induced "name not greater" relation. -/
def nameLe (h : Heap) (a b : Id) : Prop :=
  charListLe (nameOf h a).toList (nameOf h b).toList = true

instance (h : Heap) : DecidableRel (nameLe h) :=
  fun _ _ => inferInstanceAs (Decidable (_ = true))

/-- The `children` getter: `this._children.slice().sort((a, b) =>
a.name.localeCompare(b.name))` — a freshly sorted copy of the private
child array. -/
def childrenOf (h : Heap) (i : Id) : List Id :=
  List.insertionSort (nameLe h) (childIdsOf h i)

/-- `Directory.add(item)`:
```
if (this.deleted) { throw new Error("cannot add item to a deleted directory") }
item.parent = this
this._children.push(item)
return item
```
The result pairs the updated heap with the returned object (`item`). -/
def addOp (h : Heap) (self item : Id) : Except String (Heap × Id) :=
  if deletedIn h self then
    Except.error "cannot add item to a deleted directory"
  else
    let h1 := modifyItem h item (fun it => { it with parent := some self })
    let h2 := modifyItem h1 self (fun it => { it with childIds := it.childIds ++ [item] })
    Except.ok (h2, item)

/-- `Directory.delete(item)`:
```
if (item.type === "directory") {
  for (const child of item.children) { item.delete(child) }
  item.deleted = true
}
this._children = this._children.filter((child) => child !== item)
```
The recursion over the mutating heap is expressed with an explicit fuel
parameter; any fuel at least the depth of the deleted subtree computes
the same result (guaranteed by `okF` in the theorems below). -/
def deleteF : Nat → Heap → Id → Id → Heap
  | 0, h, _, _ => h
  | fuel + 1, h, self, item =>
    let h1 :=
      if isDirIn h item then
        let snapshot := childrenOf h item
        let h2 := snapshot.foldl (fun acc c => deleteF fuel acc item c) h
        modifyItem h2 item (fun it => { it with deleted := true })
      else h
    modifyItem h1 self (fun it =>
      { it with childIds := it.childIds.filter (fun c => c ≠ item) })

/-- The segments collected by `filepath`:
```
let parts = []
do { parts.unshift(item.name); item = item.parent! } while (item)
```
walking the `parent` chain up to the root (fuel bounds the walk; any
fuel exceeding the depth of the item computes the full chain). -/
def filepathPartsF : Nat → Heap → Id → List String
  | 0, _, _ => []
  | fuel + 1, h, i =>
    match h i with
    | none => []
    | some it =>
      match it.parent with
      | none => [it.name]
      | some p => filepathPartsF fuel h p ++ [it.name]

/-- `filepath(item)`: the collected segments joined by `"/"`
(`parts.join("/")`). -/
def filepathF (fuel : Nat) (h : Heap) (i : Id) : String :=
  String.intercalate "/" (filepathPartsF fuel h i)

/-- JS `String.prototype.trim()`: whitespace stripped from both ends. -/
def trimModel (s : String) : String :=
  String.mk (((s.toList.dropWhile Char.isWhitespace).reverse.dropWhile
    Char.isWhitespace).reverse)

/-- `FSViewModel.create(type, name)`:
```
name = name.trim()
if (!name) { throw new Error("cannot create an item with an empty name") }
return type === "file" ? new File(name) : new Directory(name)
```
The returned object is unattached: `parent` is `null`, and a fresh
`Directory` starts not deleted with no children. -/
def createOp (t : FSKind) (name : String) : Except String Item :=
  let name := trimModel name
  if name = "" then
    Except.error "cannot create an item with an empty name"
  else
    Except.ok { name := name, kind := t, parent := none, deleted := false,
                childIds := [] }

/-- JS `name.split(".")` on the character list (the separator is the
single character `'.'`). -/
def splitOnChar (c : Char) : List Char → List (List Char)
  | [] => [[]]
  | x :: xs =>
    let r := splitOnChar c xs
    if x = c then [] :: r
    else
      match r with
      | [] => [[x]]
      | y :: ys => (x :: y) :: ys

/-- `File.ext`:
```
const parts = this.name.split(".")
if (parts.length === 1) {
  return this.name.startsWith(".") ? parts[0] : ""
} else {
  return parts.at(-1) || ""
}
```
(`name.startsWith(".")` is the test that the first character is `'.'`;
`parts.at(-1) || ""` is the last piece, with falsy `""` mapped to `""`.) -/
def extOf (name : String) : String :=
  let cs := name.toList
  let parts := splitOnChar '.' cs
  if parts.length = 1 then
    (if cs.headD ' ' = '.' then String.mk (parts.headD []) else "")
  else String.mk ((parts.getLast?).getD [])

/-- The spec's words for the `ext` format rule: the substring after the
last `.` — the maximal suffix of the name containing no `'.'`. -/
def specExtAfterLastDot (name : String) : String :=
  String.mk ((name.toList.reverse.takeWhile (fun a => decide (a ≠ '.'))).reverse)

/-- Modelled from the spec: the repository imports `Selection` from
`./selection`, whose source is not part of `src/`. Per §3/§4.2 a
`Selection` holds the ordered universe captured at construction, the
currently selected set, and the anchor for range extension; a freshly
constructed `Selection` has nothing selected and no anchor. -/
structure Selection (α : Type) where
  univ : List α
  selectedSet : List α
  anchor : Option α
deriving DecidableEq, Repr

/-- Modelled from the spec: `new Selection(universe)`. -/
def Selection.init {α : Type} (u : List α) : Selection α :=
  { univ := u, selectedSet := [], anchor := none }

/-- Modelled from the spec (§4.2): `items` is the selected set exposed
in universe order. -/
def Selection.items {α : Type} [DecidableEq α] (s : Selection α) : List α :=
  s.univ.filter (fun x => x ∈ s.selectedSet)

/-- Modelled from the spec (§4.2): membership test against the selected
set. -/
def Selection.has {α : Type} [DecidableEq α] (s : Selection α) (x : α) : Bool :=
  x ∈ s.selectedSet

/-- Modelled from the spec (§4.2): plain click — the selected set
becomes exactly `{item}` and the anchor becomes `item`. -/
def Selection.plainClick {α : Type} (s : Selection α) (x : α) : Selection α :=
  { s with selectedSet := [x], anchor := some x }

/-- Modelled from the spec (§4.2): toggle click — remove `item` if
selected, else add it; the anchor becomes `item` either way. -/
def Selection.toggleClick {α : Type} [DecidableEq α] (s : Selection α)
    (x : α) : Selection α :=
  { s with
    selectedSet :=
      if x ∈ s.selectedSet then s.selectedSet.filter (fun y => y ≠ x)
      else x :: s.selectedSet,
    anchor := some x }

/-- Modelled from the spec (§4.2): range click — with no anchor, behave
as a plain click; otherwise select exactly the items whose index in the
universe lies in the inclusive span between the anchor's index and the
clicked item's index, leaving the anchor unchanged. -/
def Selection.rangeClick {α : Type} [DecidableEq α] (s : Selection α)
    (x : α) : Selection α :=
  match s.anchor with
  | none => s.plainClick x
  | some a =>
    let i := s.univ.indexOf a
    let j := s.univ.indexOf x
    let lo := min i j
    let hi := max i j
    { s with selectedSet := (s.univ.drop lo).take (hi - lo + 1) }

/-- Modelled from the spec (§4.2, §6): dispatch of
`fromClickEvent(item, modifiers)` on the range and toggle modifier keys. -/
def Selection.fromClickEvent {α : Type} [DecidableEq α] (s : Selection α)
    (x : α) (toggleHeld rangeHeld : Bool) : Selection α :=
  if rangeHeld then s.rangeClick x
  else if toggleHeld then s.toggleClick x
  else s.plainClick x

/-- `FSViewModel`: the current directory, the active selection and the
set of expanded directories. -/
structure FSViewModel where
  cwd : Id
  selection : Selection Id
  expandedDirs : List Id

/-- `FSViewModel.deleteSelection()`:
```
for (const item of this.selection.items) { item.parent?.delete(item) }
this.selection = new Selection(this.cwd.children)
```
(`item.parent?.delete(item)` skips items with no parent). -/
def deleteSelection (fuel : Nat) (h : Heap) (vm : FSViewModel) :
    Heap × FSViewModel :=
  let h' := vm.selection.items.foldl
    (fun acc i =>
      match parentOf acc i with
      | some p => deleteF fuel acc p i
      | none => acc) h
  (h', { vm with selection := Selection.init (childrenOf h' vm.cwd) })

/-- The selection scenario's universe `[a, b, c, d, e]`. -/
def selU : List String := ["a", "b", "c", "d", "e"]

/-- State after a plain click on `"c"` from a fresh selection. -/
def selStep1 : Selection String :=
  (Selection.init selU).fromClickEvent "c" false false

/-- State after a subsequent range click on `"e"`. -/
def selStep2 : Selection String := selStep1.fromClickEvent "e" false true

/-- State after a subsequent toggle click on `"a"`. -/
def selStep3 : Selection String := selStep2.fromClickEvent "a" true false

/-- State after a final range click on `"c"`. -/
def selStep4 : Selection String := selStep3.fromClickEvent "c" false true

/-- Modelled from the spec: the repository imports `Virtualizer` from
`./virtualizer`, whose source is not part of `src/`. Per §4.3 the total
scrollable extent is `items.length * itemHeight`, independent of how
many rows are materialized. -/
def totalExtent (numItems itemHeight : Nat) : Nat :=
  numItems * itemHeight

/-- Modelled from the spec (§4.3): the first row intersecting the
viewport at the given scroll offset. -/
def firstVisibleRow (scrollOffset itemHeight : Nat) : Nat :=
  scrollOffset / itemHeight

/-- Modelled from the spec (§4.3): the last row intersecting the
viewport (`scrollOffset + viewportHeight` is the first pixel below the
viewport). -/
def lastVisibleRow (scrollOffset viewportHeight itemHeight : Nat) : Nat :=
  (scrollOffset + viewportHeight - 1) / itemHeight

/-- Modelled from the spec (§4.3): the materialized index range — the
visible range widened by the overscan margin and clamped to the row
sequence (`Nat` subtraction clamps the lower bound at `0`). -/
def visibleRange (numItems itemHeight scrollOffset viewportHeight overscan :
    Nat) : Nat × Nat :=
  (firstVisibleRow scrollOffset itemHeight - overscan,
   min (lastVisibleRow scrollOffset viewportHeight itemHeight + overscan)
     (numItems - 1))

/-- Modelled from the spec (§4.3): each visible row `i` is placed at
vertical offset `i * itemHeight`. -/
def rowOffset (i itemHeight : Nat) : Nat :=
  i * itemHeight

/-- Concrete heap for the path property: object 0 is the root (no
parent), 1 its child, 2 the grandchild file, with the given names. -/
def chainHeap (r a b : String) : Heap := fun j =>
  if j = 0 then
    some { name := r, kind := .dir, parent := none, deleted := false,
           childIds := [1] }
  else if j = 1 then
    some { name := a, kind := .dir, parent := some 0, deleted := false,
           childIds := [2] }
  else if j = 2 then
    some { name := b, kind := .file, parent := some 1, deleted := false,
           childIds := [] }
  else none

/-- Concrete heap with a nested tree: root 0 ⊃ directory 1 ⊃ {file 2,
directory 3 ⊃ file 4}. -/
def treeHeap : Heap := fun j =>
  if j = 0 then
    some { name := "root", kind := .dir, parent := none, deleted := false,
           childIds := [1] }
  else if j = 1 then
    some { name := "d", kind := .dir, parent := some 0, deleted := false,
           childIds := [2, 3] }
  else if j = 2 then
    some { name := "f.txt", kind := .file, parent := some 1, deleted := false,
           childIds := [] }
  else if j = 3 then
    some { name := "sub", kind := .dir, parent := some 1, deleted := false,
           childIds := [4] }
  else if j = 4 then
    some { name := "g.txt", kind := .file, parent := some 3, deleted := false,
           childIds := [] }
  else none

/-- Concrete heap for the `add` scenarios: 0 is a deleted directory,
1 an empty live directory, 2 and 3 loose files, 4 a directory that
already owns file 2. -/
def addHeap : Heap := fun j =>
  if j = 0 then
    some { name := "trash", kind := .dir, parent := none, deleted := true,
           childIds := [] }
  else if j = 1 then
    some { name := "docs", kind := .dir, parent := none, deleted := false,
           childIds := [] }
  else if j = 2 then
    some { name := "b.txt", kind := .file, parent := some 4, deleted := false,
           childIds := [] }
  else if j = 3 then
    some { name := "a.txt", kind := .file, parent := none, deleted := false,
           childIds := [] }
  else if j = 4 then
    some { name := "home", kind := .dir, parent := none, deleted := false,
           childIds := [2] }
  else none

/-- Folding `Directory.add` over a list of items (`d.add(i1); d.add(i2); …`),
stopping at the first failure. -/
def addAll (h : Heap) (self : Id) : List Id → Except String Heap
  | [] => Except.ok h
  | i :: is =>
    match addOp h self i with
    | Except.error e => Except.error e
    | Except.ok (h', _) => addAll h' self is

/-- Fuel-checked shape of the subtree rooted at `i`: the node exists,
directories recurse on their children within the fuel, files have no
children. `okF n h i = true` forces the subtree's depth strictly below
`n`, so every fuel at least `n` lets `delete` complete its cascade. -/
def okF : Nat → Heap → Id → Bool
  | 0, _, _ => false
  | n + 1, h, i =>
    match h i with
    | none => false
    | some it =>
      match it.kind with
      | .dir => it.childIds.all (okF n h)
      | .file => it.childIds.isEmpty

/-- The nodes of the subtree rooted at `i` (the node itself first),
mirroring the recursion of `delete`: directories recurse on their
children, files are leaves. -/
def subtreeF : Nat → Heap → Id → List Id
  | 0, _, _ => []
  | n + 1, h, i =>
    match h i with
    | none => [i]
    | some it =>
      match it.kind with
      | .dir => i :: it.childIds.flatMap (subtreeF n h)
      | .file => [i]

/-- Agreement of two heaps on a set of nodes. -/
def EqOn (h h' : Heap) (s : List Id) : Prop :=
  ∀ x ∈ s, h' x = h x

/-- How a heap can evolve under `delete`: nothing is allocated or freed,
names, kinds and parents are unchanged, child lists only lose elements,
and the tombstone flag is only ever set, never cleared. -/
def Evol (h h' : Heap) : Prop :=
  ∀ y : Id,
    (∀ it, h y = some it → ∃ it', h' y = some it' ∧
      it'.name = it.name ∧ it'.kind = it.kind ∧ it'.parent = it.parent ∧
      it'.childIds.Sublist it.childIds ∧
      (it.deleted = true → it'.deleted = true)) ∧
    (h y = none → h' y = none)

/-- Tree-shapedness of the child lists of a family of nodes: each list
has no duplicates, and no id occurs in the lists of two different family
members (each node has at most one parent position). -/
def NodesOk (h : Heap) (ps : List Id) : Prop :=
  (∀ p ∈ ps, (childIdsOf h p).Nodup) ∧
  (∀ p ∈ ps, ∀ q ∈ ps, ∀ x ∈ childIdsOf h p, x ∈ childIdsOf h q → p = q)

/-! ## Helper lemmas about `splitOnChar` (the model of `name.split("."))` -/

theorem splitOnChar_ne_nil (c : Char) (cs : List Char) : splitOnChar c cs ≠ [] := by
  cases cs with
  | nil => simp [splitOnChar]
  | cons x xs =>
    simp only [splitOnChar]
    by_cases hx : x = c
    · simp [hx]
    · simp only [if_neg hx]
      cases splitOnChar c xs <;> simp

theorem splitOnChar_length (c : Char) :
    ∀ cs : List Char, (splitOnChar c cs).length = cs.count c + 1 := by
  intro cs
  induction cs with
  | nil => simp [splitOnChar]
  | cons x xs ih =>
    simp only [splitOnChar]
    by_cases hx : x = c
    · simp [hx, List.count_cons, ih]
    · cases h : splitOnChar c xs with
      | nil => exact absurd h (splitOnChar_ne_nil c xs)
      | cons y ys =>
        rw [h] at ih
        simp only [if_neg hx, h]
        simp only [List.length_cons] at ih ⊢
        simp [List.count_cons, hx, ih]

theorem takeWhile_append_all {p : Char → Bool} :
    ∀ {l l2 : List Char}, (∀ a ∈ l, p a = true) →
      (l ++ l2).takeWhile p = l ++ l2.takeWhile p := by
  intro l
  induction l with
  | nil => simp
  | cons x xs ih =>
    intro l2 hall
    have hx : p x = true := hall x (List.mem_cons_self ..)
    simp only [List.cons_append, List.takeWhile_cons, hx, if_true]
    rw [ih fun a ha => hall a (List.mem_cons_of_mem _ ha)]

theorem takeWhile_append_stop {p : Char → Bool} :
    ∀ {l l2 : List Char}, (∃ a ∈ l, p a = false) →
      (l ++ l2).takeWhile p = l.takeWhile p := by
  intro l
  induction l with
  | nil => rintro l2 ⟨a, ha, _⟩; exact absurd ha (List.not_mem_nil a)
  | cons x xs ih =>
    rintro l2 ⟨a, ha, hpa⟩
    by_cases hx : p x = true
    · have hax : a ≠ x := by rintro rfl; rw [hx] at hpa; exact Bool.noConfusion hpa
      have ha' : a ∈ xs := by
        rcases List.mem_cons.mp ha with h | h
        · exact absurd h hax
        · exact h
      simp only [List.cons_append, List.takeWhile_cons, hx]
      rw [ih ⟨a, ha', hpa⟩]
    · have hx' : p x = false := Bool.eq_false_iff.mpr hx
      simp [List.takeWhile_cons, hx']

theorem takeWhile_append_one {p : Char → Bool} {a : Char} (hpa : p a = false)
    (l : List Char) : (l ++ [a]).takeWhile p = l.takeWhile p := by
  by_cases hall : ∀ b ∈ l, p b = true
  · rw [takeWhile_append_all hall, List.takeWhile_cons, hpa]
    have : l.takeWhile p = l := by
      have := @takeWhile_append_all p l [] hall
      simpa using this
    simp [this]
  · push_neg at hall
    obtain ⟨b, hb, hpb⟩ := hall
    exact takeWhile_append_stop ⟨b, hb, Bool.eq_false_iff.mpr hpb⟩

theorem takeWhile_eq_self_of_all {p : Char → Bool} {l : List Char}
    (hall : ∀ a ∈ l, p a = true) : l.takeWhile p = l := by
  have := @takeWhile_append_all p l [] hall
  simpa using this

/-- The last piece produced by `split` is the maximal suffix free of the
separator. -/
theorem splitOnChar_getLast (c : Char) :
    ∀ cs : List Char,
      ((splitOnChar c cs).getLast?).getD [] =
        (cs.reverse.takeWhile (fun a => decide (a ≠ c))).reverse := by
  intro cs
  induction cs with
  | nil => simp [splitOnChar]
  | cons x xs ih =>
    have hne := splitOnChar_ne_nil c xs
    simp only [splitOnChar]
    by_cases hx : x = c
    · subst hx
      simp only [if_pos rfl, if_true]
      cases h : splitOnChar x xs with
      | nil => exact absurd h hne
      | cons y ys =>
        rw [h] at ih
        rw [List.getLast?_cons_cons]
        rw [List.reverse_cons]
        rw [takeWhile_append_one (by simp)]
        exact ih
    · simp only [if_neg hx]
      cases h : splitOnChar c xs with
      | nil => exact absurd h hne
      | cons y ys =>
        rw [h] at ih
        cases ys with
        | nil =>
          -- one piece for the tail: the tail contains no separator
          have hcount : xs.count c = 0 := by
            have := splitOnChar_length c xs
            rw [h] at this
            simpa using this.symm
          have hnotin : c ∉ xs := List.count_eq_zero.mp hcount
          have hall : ∀ a ∈ xs.reverse, (fun a => decide (a ≠ c)) a = true := by
            intro a ha
            have : a ∈ xs := List.mem_reverse.mp ha
            simp only [decide_eq_true_eq]
            rintro rfl; exact hnotin this
          have hy : y = xs := by
            have := ih
            simp only [List.getLast?_singleton, Option.getD_some] at this
            rw [takeWhile_eq_self_of_all hall] at this
            simpa using this
          simp only [List.getLast?_singleton, Option.getD_some]
          rw [List.reverse_cons, takeWhile_append_all hall]
          simp [hy, hx]
        | cons z zs =>
          -- at least two pieces for the tail: the tail contains the separator
          have hcin : c ∈ xs := by
            have hlen := splitOnChar_length c xs
            rw [h] at hlen
            by_contra hno
            rw [List.count_eq_zero.mpr hno] at hlen
            simp at hlen
          rw [List.getLast?_cons_cons] at ih
          rw [List.getLast?_cons_cons]
          rw [List.reverse_cons,
            takeWhile_append_stop ⟨c, List.mem_reverse.mpr hcin, by simp⟩]
          exact ih

/-! ## Helper lemmas about the name comparator -/

theorem charListLe_total : ∀ as bs : List Char,
    charListLe as bs = true ∨ charListLe bs as = true
  | [], _ => Or.inl rfl
  | _ :: _, [] => Or.inr rfl
  | a :: as, b :: bs => by
    by_cases hab : a = b
    · subst hab
      simpa [charListLe] using charListLe_total as bs
    · rcases lt_or_gt_of_ne hab with hlt | hgt
      · exact Or.inl (by simp [charListLe, hab, hlt])
      · exact Or.inr (by simp [charListLe, Ne.symm hab, hgt])

theorem charListLe_trans : ∀ as bs cs : List Char,
    charListLe as bs = true → charListLe bs cs = true →
      charListLe as cs = true
  | [], _, _, _, _ => rfl
  | _ :: _, [], _, h1, _ => by simp [charListLe] at h1
  | _ :: _, _ :: _, [], _, h2 => by simp [charListLe] at h2
  | a :: as, b :: bs, c :: cs, h1, h2 => by
    by_cases hab : a = b <;> by_cases hbc : b = c
    · subst hab; subst hbc
      simp only [charListLe, if_pos rfl] at h1 h2 ⊢
      exact charListLe_trans as bs cs h1 h2
    · subst hab
      simp only [charListLe, if_pos rfl] at h1
      simp only [charListLe, if_neg hbc] at h2
      simp [charListLe, hbc, of_decide_eq_true h2]
    · subst hbc
      simp only [charListLe, if_neg hab] at h1
      simp [charListLe, hab, of_decide_eq_true h1]
    · have h1' : a < b := of_decide_eq_true (by simpa [charListLe, hab] using h1)
      have h2' : b < c := of_decide_eq_true (by simpa [charListLe, hbc] using h2)
      have hac : a < c := lt_trans h1' h2'
      simp [charListLe, ne_of_lt hac, hac]

instance (h : Heap) : IsTotal Id (nameLe h) :=
  ⟨fun a b => charListLe_total (nameOf h a).toList (nameOf h b).toList⟩

instance (h : Heap) : IsTrans Id (nameLe h) :=
  ⟨fun a b c => charListLe_trans (nameOf h a).toList (nameOf h b).toList
    (nameOf h c).toList⟩

/-! ## Helper lemma about repeated `add` -/

/-- Folding `add` over fresh items accumulates them, in call order, at
the end of the receiver's internal child list. -/
theorem addAll_ok :
    ∀ (its : List Id) (h : Heap) (d : Id) (s : Item),
      h d = some s → s.deleted = false → (∀ i ∈ its, i ≠ d) →
      ∃ h', addAll h d its = Except.ok h' ∧
        h' d = some { s with childIds := s.childIds ++ its } := by
  intro its
  induction its with
  | nil =>
    intro h d s hs _ _
    exact ⟨h, rfl, by simpa using hs⟩
  | cons i is ih =>
    intro h d s hs hdel hne
    have hid : d ≠ i := (hne i (List.mem_cons_self ..)).symm
    have hdel' : deletedIn h d = false := by simp [deletedIn, hs, hdel]
    have hs1 :
        (modifyItem (modifyItem h i fun it => { it with parent := some d }) d
          fun it => { it with childIds := it.childIds ++ [i] }) d =
          some { s with childIds := s.childIds ++ [i] } := by
      simp [modifyItem, hid, hs]
    obtain ⟨h', hok, hd'⟩ :=
      ih _ d { s with childIds := s.childIds ++ [i] } hs1 hdel
        (fun j hj => hne j (List.mem_cons_of_mem _ hj))
    refine ⟨h', ?_, ?_⟩
    · simp only [addAll, addOp, hdel', if_neg (by simp [hdel'] : ¬deletedIn h d = true)]
      exact hok
    · rw [hd']
      congr 1
      simp

/-! ## C2 — the `File.ext` format rule -/

/-- C2, counterexample: the claim asserts `File(".gitignore").ext == ""`,
but `".gitignore".split(".")` is `["", "gitignore"]`, whose length is
not 1, so the code returns the last piece `"gitignore"`. -/
theorem ext_dotfile_cex :
    extOf ".gitignore" = "gitignore" ∧ extOf ".gitignore" ≠ "" := by
  constructor
  · decide
  · decide

/-- C2, amended: for every `File` whose name contains a `'.'` —
dot-prefixed names such as `".gitignore"` included — `ext` is the
substring after the last `'.'` (empty for a name ending in `'.'`); and
`ext` is the empty string whenever the name contains no `'.'` at all. -/
theorem ext_spec (name : String) :
    ('.' ∉ name.toList → extOf name = "") ∧
    ('.' ∈ name.toList → extOf name = specExtAfterLastDot name) := by
  constructor
  · intro hno
    have hcount : name.toList.count '.' = 0 := List.count_eq_zero.mpr hno
    have hlen : (splitOnChar '.' name.toList).length = 1 := by
      rw [splitOnChar_length, hcount]
    simp only [extOf, hlen, if_pos rfl, if_true]
    cases hcs : name.toList with
    | nil => simp
    | cons x xs =>
      have hx : x ≠ '.' := by
        rintro rfl
        exact hno (hcs ▸ List.mem_cons_self ..)
      simp [hx]
  · intro hyes
    have hcount : name.toList.count '.' ≠ 0 := by
      intro hc
      exact List.count_eq_zero.mp hc hyes
    have hlen : (splitOnChar '.' name.toList).length ≠ 1 := by
      rw [splitOnChar_length]
      omega
    simp only [extOf, if_neg hlen]
    rw [splitOnChar_getLast]
    rfl

/-- C2, witness for the amended claim at the spec's own example names. -/
theorem ext_spec_witness :
    extOf "report.tar.gz" = specExtAfterLastDot "report.tar.gz" ∧
    extOf "README" = "" :=
  ⟨(ext_spec "report.tar.gz").2 (by decide), (ext_spec "README").1 (by decide)⟩

/-! ## C5 — the `create` factory -/

/-- C5: `create(type, name)` trims the name, fails with the
invalid-argument error exactly when the trimmed name is empty, and
otherwise returns a fresh unattached item (`parent` unset) of the
requested type. -/
theorem create_spec (t : FSKind) (name : String) :
    (trimModel name = "" →
      createOp t name =
        Except.error "cannot create an item with an empty name") ∧
    (trimModel name ≠ "" →
      createOp t name = Except.ok
        { name := trimModel name, kind := t, parent := none,
          deleted := false, childIds := [] }) := by
  constructor
  · intro h
    simp [createOp, h]
  · intro h
    simp [createOp, h]

/-- C5, witness: the all-blank name `"   "` fails; a padded name is
trimmed and succeeds unattached. -/
theorem create_spec_witness :
    createOp FSKind.file "   " =
      Except.error "cannot create an item with an empty name" ∧
    createOp FSKind.dir " a " = Except.ok
      { name := "a", kind := FSKind.dir, parent := none, deleted := false,
        childIds := [] } :=
  ⟨(create_spec FSKind.file "   ").1 (by decide),
   (create_spec FSKind.dir " a ").2 (by decide)⟩

/-! ## C6 — the `filepath` derivation -/

/-- C6: `filepath` walks the `parent` chain to the root, collecting each
name front-most, and joins the segments with `"/"`; the root contributes
its own name as the first segment, so the chain root `""` → `"a"` →
`"b.txt"` yields exactly `"/a/b.txt"`, with no separate empty segment
beyond the leading slash. -/
theorem filepath_chain :
    (∀ r a b : String, filepathPartsF 3 (chainHeap r a b) 2 = [r, a, b]) ∧
    filepathF 3 (chainHeap "" "a" "b.txt") 2 = "/a/b.txt" :=
  ⟨fun _ _ _ => rfl, by decide⟩

/-! ## C8 — the selection click scenario -/

/-- C8: over the universe `[a,b,c,d,e]`, a plain click on `c` selects
`{c}` with anchor `c`; a range click on `e` selects `{c,d,e}` keeping
anchor `c`; a toggle click on `a` gives `{a,c,d,e}` with anchor `a`; a
final range click on `c` gives the inclusive anchor-to-item span
`{a,b,c}` (selected sets read back in universe order via `items`). -/
theorem selection_scenario :
    (selStep1.items = ["c"] ∧ selStep1.anchor = some "c") ∧
    (selStep2.items = ["c", "d", "e"] ∧ selStep2.anchor = some "c") ∧
    (selStep3.items = ["a", "c", "d", "e"] ∧ selStep3.anchor = some "a") ∧
    (selStep4.items = ["a", "b", "c"] ∧ selStep4.anchor = some "a") := by
  decide

/-! ## C3 — `children` after a sequence of `add` calls -/

/-- C3: folding any sequence of `add` calls into a live, initially empty
directory succeeds; the internal child list records exactly the added
items in call order, and the `children` read returns a sequence sorted
by the name comparator whose elements are exactly the added items (a
permutation, hence set equality for any add order) — the read being a
pure function of the heap, it cannot mutate the internal collection. -/
theorem children_after_adds (its : List Id) (h : Heap) (d : Id) (s : Item)
    (hs : h d = some s) (hdel : s.deleted = false) (hemp : s.childIds = [])
    (hne : ∀ i ∈ its, i ≠ d) :
    ∃ h', addAll h d its = Except.ok h' ∧
      childIdsOf h' d = its ∧
      (childrenOf h' d).Perm its ∧
      List.Sorted (nameLe h') (childrenOf h' d) := by
  obtain ⟨h', hok, hd'⟩ := addAll_ok its h d s hs hdel hne
  have hcid : childIdsOf h' d = its := by
    simp [childIdsOf, hd', hemp]
  refine ⟨h', hok, hcid, ?_, ?_⟩
  · have hperm := List.perm_insertionSort (nameLe h') (childIdsOf h' d)
    rw [hcid] at hperm
    simpa [childrenOf, hcid] using hperm
  · exact List.sorted_insertionSort (nameLe h') (childIdsOf h' d)

/-- C3, witness: adding files 3 then 2 to the empty directory 1 yields
children sorted by name (`[a.txt, b.txt]` = ids `[3, 2]`), a permutation
of the insertion order `[3, 2]`. -/
theorem children_after_adds_witness :
    ∃ h', addAll addHeap 1 [3, 2] = Except.ok h' ∧
      childIdsOf h' 1 = [3, 2] ∧
      (childrenOf h' 1).Perm [3, 2] ∧
      List.Sorted (nameLe h') (childrenOf h' 1) :=
  children_after_adds [3, 2] addHeap 1
    { name := "docs", kind := FSKind.dir, parent := none, deleted := false,
      childIds := [] } (by decide) (by decide) (by decide) (by decide)

/-! ## C4 — `add` on live and deleted directories -/

/-- C4: `add` fails with the invalid-operation error exactly when the
receiver is tombstoned; otherwise it sets the item's `parent` to the
receiver, appends the item to the receiver's internal children, and
returns the item itself. -/
theorem add_spec (h : Heap) (self item : Id) :
    (deletedIn h self = true →
      addOp h self item =
        Except.error "cannot add item to a deleted directory") ∧
    (∀ s, h self = some s → s.deleted = false →
      ∃ h', addOp h self item = Except.ok (h', item) ∧
        ((h item).isSome = true → parentOf h' item = some self) ∧
        childIdsOf h' self = s.childIds ++ [item]) := by
  constructor
  · intro hdel
    simp [addOp, hdel]
  · intro s hs hdel
    have hdel' : deletedIn h self = false := by simp [deletedIn, hs, hdel]
    refine ⟨modifyItem (modifyItem h item fun it => { it with parent := some self })
        self fun it => { it with childIds := it.childIds ++ [item] },
      by simp [addOp, hdel'], ?_, ?_⟩
    · intro hsome
      obtain ⟨it, hit⟩ := Option.isSome_iff_exists.mp hsome
      by_cases his : item = self
      · subst his
        simp [parentOf, modifyItem, hit]
      · simp [parentOf, modifyItem, his, hit]
    · by_cases his : self = item
      · subst his
        simp [childIdsOf, modifyItem, hs]
      · simp [childIdsOf, modifyItem, his, hs]

/-- C4, witness: adding to the tombstoned directory 0 fails; adding the
loose file 3 to the live directory 1 reparents it and appends it. -/
theorem add_spec_witness :
    addOp addHeap 0 3 =
      Except.error "cannot add item to a deleted directory" ∧
    (∃ h', addOp addHeap 1 3 = Except.ok (h', 3) ∧
      ((addHeap 3).isSome = true → parentOf h' 3 = some 1) ∧
      childIdsOf h' 1 = [3]) :=
  ⟨(add_spec addHeap 0 3).1 (by decide),
   (add_spec addHeap 1 3).2
     { name := "docs", kind := FSKind.dir, parent := none, deleted := false,
       childIds := [] } (by decide) (by decide)⟩

/-! ## C7 — `deleteSelection` is idempotent-safe -/

/-- C7: `deleteSelection` replaces the selection with a fresh one over
`cwd`'s updated children, whose selected set is empty, so an immediately
repeated call iterates over nothing and changes neither the heap nor the
view model; deletion itself is a total function (removal by identity
from a list that no longer contains the target filters nothing), so no
step of either call can raise. -/
theorem deleteSelection_idempotent (fuel : Nat) (h : Heap)
    (vm : FSViewModel) :
    deleteSelection fuel (deleteSelection fuel h vm).1
      (deleteSelection fuel h vm).2 = deleteSelection fuel h vm := by
  simp [deleteSelection, Selection.items, Selection.init]

/-! ## C10 — `add` breaks the single-parent invariant -/

/-- C10: when an item already sits in directory `d1`'s children and a
distinct live directory `d2` adds it, `parent` is reassigned to `d2`
while `d1`'s internal children are left untouched, so the item is
reported in the `children` of both directories — `add` does not preserve
the single-parent tree invariant. -/
theorem add_double_parent (h : Heap) (d1 d2 f : Id)
    (hne : d1 ≠ d2) (hf1 : d1 ≠ f) (hf2 : d2 ≠ f)
    (hmem : f ∈ childIdsOf h d1)
    (hdel : deletedIn h d2 = false)
    (hpresf : (h f).isSome = true)
    (hpres2 : (h d2).isSome = true) :
    ∃ h', addOp h d2 f = Except.ok (h', f) ∧
      parentOf h' f = some d2 ∧
      f ∈ childrenOf h' d1 ∧ f ∈ childrenOf h' d2 := by
  obtain ⟨it, hit⟩ := Option.isSome_iff_exists.mp hpresf
  obtain ⟨s2, hs2⟩ := Option.isSome_iff_exists.mp hpres2
  refine ⟨modifyItem (modifyItem h f fun x => { x with parent := some d2 }) d2
      fun x => { x with childIds := x.childIds ++ [f] },
    by simp [addOp, hdel], ?_, ?_, ?_⟩
  · simp [parentOf, modifyItem, Ne.symm hf2, hit]
  · have hsame : childIdsOf
        (modifyItem (modifyItem h f fun x => { x with parent := some d2 }) d2
          fun x => { x with childIds := x.childIds ++ [f] }) d1 =
        childIdsOf h d1 := by
      simp [childIdsOf, modifyItem, hne, hf1]
    simp only [childrenOf, List.mem_insertionSort, hsame]
    exact hmem
  · have happ : childIdsOf
        (modifyItem (modifyItem h f fun x => { x with parent := some d2 }) d2
          fun x => { x with childIds := x.childIds ++ [f] }) d2 =
        s2.childIds ++ [f] := by
      simp [childIdsOf, modifyItem, hf2, hs2]
    simp only [childrenOf, List.mem_insertionSort, happ]
    exact List.mem_append_right _ (List.mem_singleton_self f)

/-- C10, witness: file 2 already belongs to directory 4; adding it to
the live directory 1 leaves it in both directories' children with its
parent now 1. -/
theorem add_double_parent_witness :
    ∃ h', addOp addHeap 1 2 = Except.ok (h', 2) ∧
      parentOf h' 2 = some 1 ∧
      2 ∈ childrenOf h' 4 ∧ 2 ∈ childrenOf h' 1 :=
  add_double_parent addHeap 4 1 2 (by decide) (by decide) (by decide)
    (by decide) (by decide) (by decide) (by decide)

/-! ## C9 — the virtualizer layout scenario -/

/-- C9: with 1000 uniform rows of height 24 the reported scrollable
extent is `1000 * 24 = 24000` (a function of the row count and row
height only); at scroll offset 480 with viewport height 240 the visible
rows are exactly 20 through 29 inclusive, widened by any configured
overscan and clamped to the row range, and each row `i` sits at vertical
offset `i * 24`. -/
theorem virtualizer_scenario :
    totalExtent 1000 24 = 24000 ∧
    firstVisibleRow 480 24 = 20 ∧
    lastVisibleRow 480 240 24 = 29 ∧
    (∀ overscan, visibleRange 1000 24 480 240 overscan =
      (20 - overscan, min (29 + overscan) 999)) ∧
    (∀ i, rowOffset i 24 = i * 24) := by
  refine ⟨by decide, by decide, by decide, ?_, fun i => rfl⟩
  intro overscan
  simp [visibleRange, firstVisibleRow, lastVisibleRow]

/-! ## Helper lemmas for the deletion cascade -/

theorem flatMap_congr {α β : Type} {f g : α → List β} :
    ∀ {l : List α}, (∀ c ∈ l, f c = g c) → l.flatMap f = l.flatMap g := by
  intro l
  induction l with
  | nil => intro _; rfl
  | cons c cs ih =>
    intro hfg
    simp only [List.flatMap_cons]
    rw [hfg c (List.mem_cons_self ..),
      ih fun a ha => hfg a (List.mem_cons_of_mem _ ha)]

theorem chunk_sublist {α β : Type} {f : α → List β} :
    ∀ {l : List α} {c : α}, c ∈ l → (f c).Sublist (l.flatMap f) := by
  intro l
  induction l with
  | nil => intro c hc; exact absurd hc (List.not_mem_nil c)
  | cons a as ih =>
    intro c hc
    rcases List.mem_cons.mp hc with rfl | hc'
    · simp only [List.flatMap_cons]
      exact List.sublist_append_left (f c) (as.flatMap f)
    · refine (ih hc').trans ?_
      simp only [List.flatMap_cons]
      exact List.sublist_append_right (f a) (as.flatMap f)

theorem flatMap_nodup_disjoint {f : Id → List Id} :
    ∀ {l : List Id}, (l.flatMap f).Nodup → ∀ {a b : Id}, a ∈ l → b ∈ l →
      a ≠ b → ∀ x, x ∈ f a → x ∈ f b → False := by
  intro l
  induction l with
  | nil => intro _ a b ha; exact absurd ha (List.not_mem_nil a)
  | cons c cs ih =>
    intro hnd a b ha hb hne x hxa hxb
    rw [List.flatMap_cons, List.nodup_append] at hnd
    obtain ⟨_, hnd2, hdisj⟩ := hnd
    rcases List.mem_cons.mp ha with rfl | ha' <;>
      rcases List.mem_cons.mp hb with rfl | hb'
    · exact hne rfl
    · exact hdisj hxa (List.mem_flatMap.mpr ⟨b, hb', hxb⟩)
    · exact hdisj hxb (List.mem_flatMap.mpr ⟨a, ha', hxa⟩)
    · exact ih hnd2 ha' hb' hne x hxa hxb

theorem all_congr_ids {f g : Id → Bool} :
    ∀ {l : List Id}, (∀ c ∈ l, f c = g c) → l.all f = l.all g := by
  intro l
  induction l with
  | nil => intro _; rfl
  | cons a as ih =>
    intro hfg
    simp only [List.all_cons]
    rw [hfg a (List.mem_cons_self ..),
      ih fun c hc => hfg c (List.mem_cons_of_mem _ hc)]

theorem modifyItem_same (h : Heap) (i : Id) (f : Item → Item) :
    modifyItem h i f i = (h i).map f := by
  simp [modifyItem]

theorem modifyItem_ne (h : Heap) (i : Id) (f : Item → Item) {j : Id}
    (hj : j ≠ i) : modifyItem h i f j = h j := by
  simp [modifyItem, hj]

theorem evol_refl (h : Heap) : Evol h h := by
  intro y
  constructor
  · intro it hit
    exact ⟨it, hit, rfl, rfl, rfl, List.Sublist.refl _, fun hd => hd⟩
  · exact fun hn => hn

theorem evol_trans {h1 h2 h3 : Heap} (e12 : Evol h1 h2) (e23 : Evol h2 h3) :
    Evol h1 h3 := by
  intro y
  obtain ⟨f12, n12⟩ := e12 y
  obtain ⟨f23, n23⟩ := e23 y
  constructor
  · intro it hit
    obtain ⟨it2, hit2, hn, hk, hp, hs, hd⟩ := f12 it hit
    obtain ⟨it3, hit3, hn3, hk3, hp3, hs3, hd3⟩ := f23 it2 hit2
    exact ⟨it3, hit3, hn3.trans hn, hk3.trans hk, hp3.trans hp,
      hs3.trans hs, fun hdel => hd3 (hd hdel)⟩
  · exact fun hn => n23 (n12 hn)

theorem evol_modifyItem (h : Heap) (i : Id) (f : Item → Item)
    (hf : ∀ it, (f it).name = it.name ∧ (f it).kind = it.kind ∧
      (f it).parent = it.parent ∧ ((f it).childIds).Sublist it.childIds ∧
      (it.deleted = true → (f it).deleted = true)) :
    Evol h (modifyItem h i f) := by
  intro y
  by_cases hy : y = i
  · subst hy
    constructor
    · intro it hit
      obtain ⟨h1, h2, h3, h4, h5⟩ := hf it
      exact ⟨f it, by simp [modifyItem, hit], h1, h2, h3, h4, h5⟩
    · intro hn
      simp [modifyItem, hn]
  · constructor
    · intro it hit
      exact ⟨it, by simp [modifyItem, hy, hit], rfl, rfl, rfl,
        List.Sublist.refl _, fun hd => hd⟩
    · intro hn
      simp [modifyItem, hy, hn]

theorem evol_childIds {h h' : Heap} (e : Evol h h') (y : Id) :
    (childIdsOf h' y).Sublist (childIdsOf h y) := by
  cases hy : h y with
  | none =>
    have := (e y).2 hy
    simp [childIdsOf, hy, this]
  | some it =>
    obtain ⟨it', hit', _, _, _, hs, _⟩ := (e y).1 it hy
    simp [childIdsOf, hy, hit']
    exact hs

theorem evol_notMem {h h' : Heap} (e : Evol h h') {x p : Id}
    (hx : x ∉ childIdsOf h p) : x ∉ childIdsOf h' p :=
  fun hmem => hx ((evol_childIds e p).subset hmem)

theorem evol_deleted {h h' : Heap} (e : Evol h h') {y : Id}
    (hd : deletedIn h y = true) : deletedIn h' y = true := by
  cases hy : h y with
  | none => simp [deletedIn, hy] at hd
  | some it =>
    obtain ⟨it', hit', _, _, _, _, hdel⟩ := (e y).1 it hy
    have : it.deleted = true := by simpa [deletedIn, hy] using hd
    simp [deletedIn, hit', hdel this]

theorem mem_subtreeF_self {n : Nat} (hn : 0 < n) (h : Heap) (i : Id) :
    i ∈ subtreeF n h i := by
  obtain ⟨m, rfl⟩ : ∃ m, n = m + 1 :=
    ⟨n - 1, by omega⟩
  cases hi : h i with
  | none => simp [subtreeF, hi]
  | some it =>
    obtain ⟨nm, k, pr, dl, ch⟩ := it
    cases k <;> simp [subtreeF, hi]

theorem subtreeF_congr :
    ∀ (n : Nat) (h h' : Heap) (i : Id), EqOn h h' (subtreeF n h i) →
      subtreeF n h' i = subtreeF n h i := by
  intro n
  induction n with
  | zero => intro h h' i _; rfl
  | succ m ih =>
    intro h h' i heq
    have hii : h' i = h i := heq i (mem_subtreeF_self (Nat.succ_pos m) h i)
    cases hi : h i with
    | none =>
      rw [hi] at hii
      simp [subtreeF, hii, hi]
    | some it =>
      obtain ⟨nm, k, pr, dl, ch⟩ := it
      rw [hi] at hii
      cases k with
      | file => simp [subtreeF, hii, hi]
      | dir =>
        simp only [subtreeF, hii, hi]
        congr 1
        apply flatMap_congr
        intro c hc
        apply ih
        intro x hx
        apply heq
        simp only [subtreeF, hi]
        exact List.mem_cons_of_mem _ (List.mem_flatMap.mpr ⟨c, hc, hx⟩)

theorem okF_congr :
    ∀ (n : Nat) (h h' : Heap) (i : Id), EqOn h h' (subtreeF n h i) →
      okF n h' i = okF n h i := by
  intro n
  induction n with
  | zero => intro h h' i _; rfl
  | succ m ih =>
    intro h h' i heq
    have hii : h' i = h i := heq i (mem_subtreeF_self (Nat.succ_pos m) h i)
    cases hi : h i with
    | none =>
      rw [hi] at hii
      simp [okF, hii, hi]
    | some it =>
      obtain ⟨nm, k, pr, dl, ch⟩ := it
      rw [hi] at hii
      cases k with
      | file => simp [okF, hii, hi]
      | dir =>
        simp only [okF, hii, hi]
        apply all_congr_ids
        intro c hc
        apply ih
        intro x hx
        apply heq
        simp only [subtreeF, hi]
        exact List.mem_cons_of_mem _ (List.mem_flatMap.mpr ⟨c, hc, hx⟩)

theorem okF_mono :
    ∀ (m n : Nat) (h : Heap) (i : Id), n ≤ m → okF n h i = true →
      okF m h i = true := by
  intro m
  induction m with
  | zero =>
    intro n h i hle hok
    have : n = 0 := Nat.le_zero.mp hle
    subst this
    simp [okF] at hok
  | succ M ih =>
    intro n h i hle hok
    cases n with
    | zero => simp [okF] at hok
    | succ N =>
      have hNM : N ≤ M := Nat.succ_le_succ_iff.mp hle
      cases hi : h i with
      | none => simp [okF, hi] at hok
      | some it =>
        obtain ⟨nm, k, pr, dl, ch⟩ := it
        cases k with
        | file => simpa [okF, hi] using (by simpa [okF, hi] using hok)
        | dir =>
          have hok' : ∀ c ∈ ch, okF N h c = true := by
            simpa [okF, hi, List.all_eq_true] using hok
          simp only [okF, hi, List.all_eq_true]
          exact fun c hc => ih N h c hNM (hok' c hc)

theorem subtreeF_fuel :
    ∀ (n : Nat) (h : Heap) (i : Id), okF n h i = true →
      subtreeF (n + 1) h i = subtreeF n h i := by
  intro n
  induction n with
  | zero => intro h i hok; simp [okF] at hok
  | succ m ih =>
    intro h i hok
    cases hi : h i with
    | none => simp [okF, hi] at hok
    | some it =>
      obtain ⟨nm, k, pr, dl, ch⟩ := it
      cases k with
      | file => simp [subtreeF, hi]
      | dir =>
        have hok' : ∀ c ∈ ch, okF m h c = true := by
          simpa [okF, hi, List.all_eq_true] using hok
        simp only [subtreeF, hi]
        congr 1
        exact flatMap_congr fun c hc => ih h c (hok' c hc)

theorem subtreeF_ge :
    ∀ (k m : Nat) (h : Heap) (i : Id), okF m h i = true →
      subtreeF (m + k) h i = subtreeF m h i := by
  intro k
  induction k with
  | zero => intro m h i _; rfl
  | succ K ih =>
    intro m h i hok
    have hK : okF (m + K) h i = true :=
      okF_mono (m + K) m h i (Nat.le_add_right ..) hok
    calc subtreeF (m + (K + 1)) h i
        = subtreeF ((m + K) + 1) h i := by rw [Nat.add_assoc]
      _ = subtreeF (m + K) h i := subtreeF_fuel (m + K) h i hK
      _ = subtreeF m h i := ih m h i hok

theorem subtreeF_of_le {n m : Nat} (h : Heap) (i : Id) (hok : okF m h i = true)
    (hle : m ≤ n) : subtreeF n h i = subtreeF m h i := by
  obtain ⟨k, rfl⟩ := Nat.exists_eq_add_of_le hle
  exact subtreeF_ge k m h i hok

theorem subtree_parent_mem :
    ∀ (n : Nat) (h : Heap) (i x : Id), x ∈ subtreeF n h i →
      x = i ∨ ∃ q ∈ subtreeF n h i, x ∈ childIdsOf h q := by
  intro n
  induction n with
  | zero => intro h i x hx; simp [subtreeF] at hx
  | succ m ih =>
    intro h i x hx
    cases hi : h i with
    | none =>
      left
      simpa [subtreeF, hi] using hx
    | some it =>
      obtain ⟨nm, k, pr, dl, ch⟩ := it
      cases k with
      | file =>
        left
        simpa [subtreeF, hi] using hx
      | dir =>
        simp only [subtreeF, hi] at hx
        rcases List.mem_cons.mp hx with rfl | hx'
        · left; rfl
        · obtain ⟨c, hc, hxc⟩ := List.mem_flatMap.mp hx'
          rcases ih h c x hxc with rfl | ⟨q, hq, hxq⟩
          · right
            refine ⟨i, mem_subtreeF_self (Nat.succ_pos m) h i, ?_⟩
            simpa [childIdsOf, hi] using hc
          · right
            refine ⟨q, ?_, hxq⟩
            simp only [subtreeF, hi]
            exact List.mem_cons_of_mem _ (List.mem_flatMap.mpr ⟨c, hc, hq⟩)

theorem subtree_closed :
    ∀ (n : Nat) (h : Heap) (i : Id), okF n h i = true →
      ∀ x ∈ subtreeF n h i, ∀ y ∈ childIdsOf h x, y ∈ subtreeF n h i := by
  intro n
  induction n with
  | zero => intro h i hok; simp [okF] at hok
  | succ m ih =>
    intro h i hok x hx y hy
    cases hi : h i with
    | none => simp [okF, hi] at hok
    | some it =>
      obtain ⟨nm, k, pr, dl, ch⟩ := it
      cases k with
      | file =>
        have hxi : x = i := by simpa [subtreeF, hi] using hx
        subst hxi
        have hch : ch = [] := by simpa [okF, hi] using hok
        simp [childIdsOf, hi, hch] at hy
      | dir =>
        have hok' : ∀ c ∈ ch, okF m h c = true := by
          simpa [okF, hi, List.all_eq_true] using hok
        simp only [subtreeF, hi] at hx ⊢
        rcases List.mem_cons.mp hx with rfl | hx'
        · have hy' : y ∈ ch := by simpa [childIdsOf, hi] using hy
          apply List.mem_cons_of_mem
          apply List.mem_flatMap.mpr
          refine ⟨y, hy', mem_subtreeF_self ?_ h y⟩
          have hoky := hok' y hy'
          cases m with
          | zero => simp [okF] at hoky
          | succ _ => exact Nat.succ_pos _
        · obtain ⟨c, hc, hxc⟩ := List.mem_flatMap.mp hx'
          apply List.mem_cons_of_mem
          apply List.mem_flatMap.mpr
          exact ⟨c, hc, ih h c (hok' c hc) x hxc y hy⟩

theorem okF_of_mem :
    ∀ (n : Nat) (h : Heap) (i x : Id), okF n h i = true →
      x ∈ subtreeF n h i → ∃ m, m ≤ n ∧ okF m h x = true := by
  intro n
  induction n with
  | zero => intro h i x hok; simp [okF] at hok
  | succ m ih =>
    intro h i x hok hx
    cases hi : h i with
    | none => simp [okF, hi] at hok
    | some it =>
      obtain ⟨nm, k, pr, dl, ch⟩ := it
      cases k with
      | file =>
        have hxi : x = i := by simpa [subtreeF, hi] using hx
        subst hxi
        exact ⟨m + 1, Nat.le_refl _, hok⟩
      | dir =>
        have hok' : ∀ c ∈ ch, okF m h c = true := by
          simpa [okF, hi, List.all_eq_true] using hok
        simp only [subtreeF, hi] at hx
        rcases List.mem_cons.mp hx with rfl | hx'
        · exact ⟨m + 1, Nat.le_refl _, hok⟩
        · obtain ⟨c, hc, hxc⟩ := List.mem_flatMap.mp hx'
          obtain ⟨m', hm', hok''⟩ := ih h c x (hok' c hc) hxc
          exact ⟨m', Nat.le_succ_of_le hm', hok''⟩

theorem subtree_trans :
    ∀ (n : Nat) (h : Heap) (a d x : Id), okF n h a = true →
      d ∈ subtreeF n h a → x ∈ subtreeF n h d → x ∈ subtreeF n h a := by
  intro n
  induction n with
  | zero => intro h a d x hok; simp [okF] at hok
  | succ m ih =>
    intro h a d x hok hd hx
    cases hi : h a with
    | none => simp [okF, hi] at hok
    | some it =>
      obtain ⟨nm, k, pr, dl, ch⟩ := it
      cases k with
      | file =>
        have hda : d = a := by simpa [subtreeF, hi] using hd
        subst hda
        exact hx
      | dir =>
        have hok' : ∀ c ∈ ch, okF m h c = true := by
          simpa [okF, hi, List.all_eq_true] using hok
        simp only [subtreeF, hi] at hd ⊢
        rcases List.mem_cons.mp hd with rfl | hd'
        · simpa [subtreeF, hi] using hx
        · obtain ⟨c, hc, hdc⟩ := List.mem_flatMap.mp hd'
          obtain ⟨m', hm', hokd⟩ := okF_of_mem m h c d (hok' c hc) hdc
          have hstep : subtreeF (m + 1) h d = subtreeF m' h d :=
            subtreeF_of_le h d hokd (Nat.le_succ_of_le hm')
          have hstep2 : subtreeF m h d = subtreeF m' h d :=
            subtreeF_of_le h d hokd hm'
          rw [hstep, ← hstep2] at hx
          exact List.mem_cons_of_mem _
            (List.mem_flatMap.mpr ⟨c, hc, ih h c d x (hok' c hc) hdc hx⟩)

theorem isDirIn_congr {h h' : Heap} {x : Id} (e : h' x = h x) :
    isDirIn h' x = isDirIn h x := by
  simp [isDirIn, e]

theorem nodesOk_mono {h h' : Heap} {ps qs : List Id}
    (hok : NodesOk h ps) (hsub : qs ⊆ ps)
    (hev : ∀ p, (childIdsOf h' p).Sublist (childIdsOf h p)) :
    NodesOk h' qs := by
  obtain ⟨h1, h2⟩ := hok
  constructor
  · exact fun p hp => (h1 p (hsub hp)).sublist (hev p)
  · intro p hp q hq x hxp hxq
    exact h2 p (hsub hp) q (hsub hq) x ((hev p).subset hxp)
      ((hev q).subset hxq)

/-- Core cascade lemma: with enough fuel for the (duplicate-free,
tree-shaped) subtree of `item`, `delete` tombstones every directory of
the subtree, removes every subtree node from every family child list,
leaves every object outside `{slf} ∪ subtree` untouched, and only
evolves the heap (child lists shrink, tombstones are only set). -/
theorem deleteF_cascadeAux :
    ∀ (n : Nat) (h : Heap) (slf item : Id),
      okF n h item = true →
      slf ∉ subtreeF n h item →
      (subtreeF n h item).Nodup →
      NodesOk h (slf :: subtreeF n h item) →
      (∀ x ∈ subtreeF n h item, isDirIn h x = true →
        deletedIn (deleteF n h slf item) x = true) ∧
      (∀ x ∈ subtreeF n h item, ∀ p, (p = slf ∨ p ∈ subtreeF n h item) →
        x ∉ childIdsOf (deleteF n h slf item) p) ∧
      (∀ y, y ≠ slf → y ∉ subtreeF n h item →
        deleteF n h slf item y = h y) ∧
      Evol h (deleteF n h slf item) := by
  intro n
  induction n with
  | zero => intro h slf item hok _ _ _; simp [okF] at hok
  | succ m ihn =>
    intro h slf item hok hslf hnd hnodes
    cases hi : h item with
    | none => simp [okF, hi] at hok
    | some it =>
      obtain ⟨nm, k, pr, dl, ch⟩ := it
      cases k with
      | file =>
        have hsub : subtreeF (m + 1) h item = [item] := by simp [subtreeF, hi]
        have hch : ch = [] := by simpa [okF, hi] using hok
        have hdirF : isDirIn h item = false := by simp [isDirIn, hi]
        have hD : deleteF (m + 1) h slf item =
            modifyItem h slf (fun x =>
              { x with childIds := x.childIds.filter (fun c => c ≠ item) }) := by
          simp [deleteF, hdirF]
        have hsi : slf ≠ item := by
          rw [hsub] at hslf
          simpa using hslf
        have hev : Evol h (deleteF (m + 1) h slf item) := by
          rw [hD]
          exact evol_modifyItem h slf _
            (fun x => ⟨rfl, rfl, rfl, List.filter_sublist _, fun hd => hd⟩)
        refine ⟨?_, ?_, ?_, hev⟩
        · intro x hx hdir
          rw [hsub] at hx
          have hxi : x = item := by simpa using hx
          subst hxi
          rw [hdirF] at hdir
          exact absurd hdir (by simp)
        · intro x hx p hp
          rw [hsub] at hx
          have hxi : x = item := by simpa using hx
          subst hxi
          rcases hp with rfl | hpS
          · rw [hD]
            cases hs : h p with
            | none => simp [childIdsOf, modifyItem, hs]
            | some s => simp [childIdsOf, modifyItem, hs]
          · rw [hsub] at hpS
            have hpi : p = x := by simpa using hpS
            subst hpi
            rw [hD, childIdsOf, modifyItem_ne h slf _ (Ne.symm hsi), ← childIdsOf]
            simp [childIdsOf, hi, hch]
        · intro y hy _
          rw [hD]
          exact modifyItem_ne h slf _ hy
      | dir =>
        have hok' : ∀ c ∈ ch, okF m h c = true := by
          simpa [okF, hi, List.all_eq_true] using hok
        have hchIds : childIdsOf h item = ch := by simp [childIdsOf, hi]
        have hsub : subtreeF (m + 1) h item =
            item :: ch.flatMap (subtreeF m h) := by simp [subtreeF, hi]
        have hndK : (ch.flatMap (subtreeF m h)).Nodup := by
          rw [hsub] at hnd
          exact (List.nodup_cons.mp hnd).2
        have hitemK : item ∉ ch.flatMap (subtreeF m h) := by
          rw [hsub] at hnd
          exact (List.nodup_cons.mp hnd).1
        have hslf2 : ¬(slf = item ∨ slf ∈ ch.flatMap (subtreeF m h)) := by
          rw [hsub] at hslf
          simpa using hslf
        have hslf_item : slf ≠ item := fun he => hslf2 (Or.inl he)
        have hslfK : slf ∉ ch.flatMap (subtreeF m h) := fun hk => hslf2 (Or.inr hk)
        have hitemS : item ∈ subtreeF (m + 1) h item :=
          mem_subtreeF_self (Nat.succ_pos m) h item
        have hchunk_subK : ∀ c ∈ ch, ∀ x ∈ subtreeF m h c,
            x ∈ ch.flatMap (subtreeF m h) :=
          fun c hc x hx => List.mem_flatMap.mpr ⟨c, hc, hx⟩
        have hchN : ch.Nodup := by
          have := hnodes.1 item (List.mem_cons_of_mem _ hitemS)
          rwa [hchIds] at this
        have hsnap : childrenOf h item = List.insertionSort (nameLe h) ch := by
          rw [childrenOf, hchIds]
        have hsnapN : (List.insertionSort (nameLe h) ch).Nodup :=
          ((List.perm_insertionSort (nameLe h) ch).nodup_iff).mpr hchN
        have fold :
            ∀ (cs : List Id), ∀ (hacc : Heap),
              (∀ c ∈ cs, c ∈ ch) →
              cs.Nodup →
              (∀ c ∈ cs, EqOn h hacc (subtreeF m h c)) →
              Evol h hacc →
              (∀ c ∈ cs, ∀ x ∈ subtreeF m h c, isDirIn h x = true →
                deletedIn (cs.foldl (fun acc c => deleteF m acc item c) hacc)
                  x = true) ∧
              (∀ c ∈ cs, ∀ x ∈ subtreeF m h c, ∀ p,
                (p = item ∨ p ∈ ch.flatMap (subtreeF m h)) →
                x ∉ childIdsOf
                  (cs.foldl (fun acc c => deleteF m acc item c) hacc) p) ∧
              (∀ y, y ≠ item → (∀ c ∈ cs, y ∉ subtreeF m h c) →
                (cs.foldl (fun acc c => deleteF m acc item c) hacc) y =
                  hacc y) ∧
              Evol hacc (cs.foldl (fun acc c => deleteF m acc item c) hacc) := by
          intro cs
          induction cs with
          | nil =>
            intro hacc _ _ _ _
            exact ⟨by simp, by simp, fun y _ _ => rfl, evol_refl hacc⟩
          | cons c cs ihcs =>
            intro hacc hin hndcs heq hev
            have hc_ch : c ∈ ch := hin c (List.mem_cons_self ..)
            have hokc : okF m h c = true := hok' c hc_ch
            have heqc : EqOn h hacc (subtreeF m h c) :=
              heq c (List.mem_cons_self ..)
            have hsub_eq : subtreeF m hacc c = subtreeF m h c :=
              subtreeF_congr m h hacc c heqc
            have hok_eq : okF m hacc c = okF m h c :=
              okF_congr m h hacc c heqc
            have hitem_not : item ∉ subtreeF m h c :=
              fun hmem => hitemK (hchunk_subK c hc_ch item hmem)
            have hnd_c : (subtreeF m h c).Nodup :=
              hndK.sublist (chunk_sublist hc_ch)
            have hfam_sub : (item :: subtreeF m h c) ⊆
                (slf :: subtreeF (m + 1) h item) := by
              intro p hp
              rcases List.mem_cons.mp hp with rfl | hp'
              · exact List.mem_cons_of_mem _ hitemS
              · refine List.mem_cons_of_mem _ ?_
                rw [hsub]
                exact List.mem_cons_of_mem _ (hchunk_subK c hc_ch p hp')
            have hnodes_c : NodesOk hacc (item :: subtreeF m h c) :=
              nodesOk_mono hnodes hfam_sub (fun p => evol_childIds hev p)
            obtain ⟨ca, cb, cc, ce⟩ :=
              ihn hacc item c (by rw [hok_eq]; exact hokc)
                (by rw [hsub_eq]; exact hitem_not)
                (by rw [hsub_eq]; exact hnd_c)
                (by rw [hsub_eq]; exact hnodes_c)
            rw [hsub_eq] at ca cb cc
            have ca' : ∀ x ∈ subtreeF m h c, isDirIn h x = true →
                deletedIn (deleteF m hacc item c) x = true := by
              intro x hx hdir
              exact ca x hx (by rw [isDirIn_congr (heqc x hx)]; exact hdir)
            have hin' : ∀ c' ∈ cs, c' ∈ ch :=
              fun c' hc' => hin c' (List.mem_cons_of_mem _ hc')
            have hndcs' : cs.Nodup := (List.nodup_cons.mp hndcs).2
            have hc_not : c ∉ cs := (List.nodup_cons.mp hndcs).1
            have heq' : ∀ c' ∈ cs, EqOn h (deleteF m hacc item c)
                (subtreeF m h c') := by
              intro c' hc' y hy
              have hcc' : c ≠ c' := fun hceq => hc_not (hceq ▸ hc')
              have hy_notc : y ∉ subtreeF m h c := fun hyc =>
                flatMap_nodup_disjoint hndK hc_ch (hin' c' hc') hcc' y hyc hy
              have hy_item : y ≠ item := by
                rintro rfl
                exact hitemK (hchunk_subK c' (hin' c' hc') y hy)
              rw [cc y hy_item hy_notc]
              exact heq c' (List.mem_cons_of_mem _ hc') y hy
            have hev' : Evol h (deleteF m hacc item c) := evol_trans hev ce
            obtain ⟨ra, rb, rc, re⟩ :=
              ihcs (deleteF m hacc item c) hin' hndcs' heq' hev'
            rw [List.foldl_cons]
            refine ⟨?_, ?_, ?_, evol_trans ce re⟩
            · intro c0 hc0 x hx hdir
              rcases List.mem_cons.mp hc0 with rfl | hc0'
              · exact evol_deleted re (ca' x hx hdir)
              · exact ra c0 hc0' x hx hdir
            · intro c0 hc0 x hx p hp
              rcases List.mem_cons.mp hc0 with rfl | hc0'
              · rcases hp with rfl | hpK
                · exact evol_notMem re (cb x hx p (Or.inl rfl))
                · by_cases hpc : p ∈ subtreeF m h c0
                  · exact evol_notMem re (cb x hx p (Or.inr hpc))
                  · have hx_not : x ∉ childIdsOf h p := by
                      intro hxp
                      have hpF : p ∈ slf :: subtreeF (m + 1) h item := by
                        refine List.mem_cons_of_mem _ ?_
                        rw [hsub]
                        exact List.mem_cons_of_mem _ hpK
                      rcases subtree_parent_mem m h c0 x hx with rfl | ⟨q, hq, hxq⟩
                      · have hpitem : p = item :=
                          hnodes.2 p hpF item (List.mem_cons_of_mem _ hitemS) x
                            hxp (by rw [hchIds]; exact hc_ch)
                        rw [hpitem] at hpK
                        exact hitemK hpK
                      · have hqF : q ∈ slf :: subtreeF (m + 1) h item := by
                          refine List.mem_cons_of_mem _ ?_
                          rw [hsub]
                          exact List.mem_cons_of_mem _ (hchunk_subK c0 hc_ch q hq)
                        have hpq : p = q :=
                          hnodes.2 p hpF q hqF x hxp hxq
                        rw [hpq] at hpc
                        exact hpc hq
                    exact evol_notMem (evol_trans hev (evol_trans ce re)) hx_not
              · exact rb c0 hc0' x hx p hp
            · intro y hy hynot
              rw [rc y hy (fun c' hc' => hynot c' (List.mem_cons_of_mem _ hc'))]
              exact cc y hy (hynot c (List.mem_cons_self ..))
        obtain ⟨FA, FB, FC, FE⟩ :=
          fold (List.insertionSort (nameLe h) ch) h
            (fun c hc => by simpa using hc)
            hsnapN
            (fun c _ x _ => rfl)
            (evol_refl h)
        have hisdir : isDirIn h item = true := by simp [isDirIn, hi]
        have hDdel : deleteF (m + 1) h slf item =
            modifyItem (modifyItem
              ((List.insertionSort (nameLe h) ch).foldl
                (fun acc c => deleteF m acc item c) h) item
              (fun x => { x with deleted := true })) slf
              (fun x => { x with childIds :=
                x.childIds.filter (fun c => c ≠ item) }) := by
          simp only [deleteF, hisdir, if_true, hsnap]
        set hfold := (List.insertionSort (nameLe h) ch).foldl
          (fun acc c => deleteF m acc item c) h with hfold_def
        set h1 := modifyItem hfold item
          (fun x => { x with deleted := true }) with h1_def
        set hD := modifyItem h1 slf
          (fun x => { x with childIds :=
            x.childIds.filter (fun c => c ≠ item) }) with hD_def
        have ev1 : Evol hfold h1 :=
          evol_modifyItem hfold item _
            (fun x => ⟨rfl, rfl, rfl, List.Sublist.refl _, fun _ => rfl⟩)
        have ev2 : Evol h1 hD :=
          evol_modifyItem h1 slf _
            (fun x => ⟨rfl, rfl, rfl, List.filter_sublist _, fun hd => hd⟩)
        have evD : Evol h hD := evol_trans FE (evol_trans ev1 ev2)
        have hKmem : ∀ x ∈ ch.flatMap (subtreeF m h),
            ∃ c ∈ ch, x ∈ subtreeF m h c :=
          fun x hx => List.mem_flatMap.mp hx
        refine ⟨?_, ?_, ?_, by rw [hDdel]; exact evD⟩
        · intro x hx hdir
          rw [hsub] at hx
          rw [hDdel]
          rcases List.mem_cons.mp hx with rfl | hxK
          · obtain ⟨it', hit', _⟩ := (FE x).1 _ hi
            have h1item : h1 x = some { it' with deleted := true } := by
              rw [h1_def]
              simp [modifyItem, hit']
            have hDitem : hD x = some { it' with deleted := true } := by
              rw [hD_def, modifyItem_ne h1 slf _ (Ne.symm hslf_item)]
              exact h1item
            simp [deletedIn, hDitem]
          · obtain ⟨c, hc, hxc⟩ := hKmem x hxK
            have hfa := FA c (by simpa using hc) x hxc hdir
            exact evol_deleted (evol_trans ev1 ev2) hfa
        · intro x hx p hp
          rw [hsub] at hx
          rw [hDdel]
          rcases hp with rfl | hpS
          · rcases List.mem_cons.mp hx with rfl | hxK
            · rw [hD_def]
              cases hsl : h1 p with
              | none => simp [childIdsOf, modifyItem, hsl]
              | some s => simp [childIdsOf, modifyItem, hsl]
            · have hx_not : x ∉ childIdsOf h p := by
                intro hxs
                obtain ⟨c, hc, hxc⟩ := hKmem x hxK
                rcases subtree_parent_mem m h c x hxc with rfl | ⟨q, hq, hxq⟩
                · have : p = item :=
                    hnodes.2 p (List.mem_cons_self ..) item
                      (List.mem_cons_of_mem _ hitemS) x hxs
                      (by rw [hchIds]; exact hc)
                  exact hslf_item this
                · have hqF : q ∈ p :: subtreeF (m + 1) h item := by
                    refine List.mem_cons_of_mem _ ?_
                    rw [hsub]
                    exact List.mem_cons_of_mem _ (hchunk_subK c hc q hq)
                  have hpq : p = q :=
                    hnodes.2 p (List.mem_cons_self ..) q hqF x hxs hxq
                  rw [hpq] at hslfK
                  exact hslfK (hchunk_subK c hc q hq)
              exact evol_notMem evD hx_not
          · rw [hsub] at hpS
            rcases List.mem_cons.mp hpS with rfl | hpK
            · have hDitem_eq : childIdsOf hD p = childIdsOf hfold p := by
                rw [childIdsOf, hD_def, modifyItem_ne h1 slf _ (Ne.symm hslf_item),
                  h1_def]
                cases hf : hfold p with
                | none => simp [childIdsOf, modifyItem, hf]
                | some s => simp [childIdsOf, modifyItem, hf]
              rw [hDitem_eq]
              rcases List.mem_cons.mp hx with rfl | hxK
              · have hx_not : x ∉ childIdsOf h x := by
                  intro hxx
                  have hxch : x ∈ ch := by rwa [hchIds] at hxx
                  have hokx : okF m h x = true := hok' x hxch
                  have hm1 : 0 < m := by
                    cases m with
                    | zero => simp [okF] at hokx
                    | succ _ => exact Nat.succ_pos _
                  exact hitemK (hchunk_subK x hxch x (mem_subtreeF_self hm1 h x))
                exact fun hmem => hx_not ((evol_childIds FE x).subset hmem)
              · obtain ⟨c, hc, hxc⟩ := hKmem x hxK
                exact FB c (by simpa using hc) x hxc p (Or.inl rfl)
            · have hp_slf : p ≠ slf := by
                rintro rfl
                exact hslfK hpK
              have hp_item : p ≠ item := by
                rintro rfl
                exact hitemK hpK
              have hDp_eq : childIdsOf hD p = childIdsOf hfold p := by
                rw [childIdsOf, hD_def, modifyItem_ne h1 slf _ hp_slf, h1_def,
                  modifyItem_ne hfold item _ hp_item, ← childIdsOf]
              rw [hDp_eq]
              rcases List.mem_cons.mp hx with rfl | hxK
              · have hx_not : x ∉ childIdsOf h p := by
                  intro hxp
                  obtain ⟨c, hc, hpc⟩ := hKmem p hpK
                  have hxs := subtree_closed m h c (hok' c hc) p hpc x hxp
                  exact hitemK (hchunk_subK c hc x hxs)
                exact fun hmem => hx_not ((evol_childIds FE p).subset hmem)
              · obtain ⟨c, hc, hxc⟩ := hKmem x hxK
                exact FB c (by simpa using hc) x hxc p (Or.inr hpK)
        · intro y hy hynot
          rw [hsub] at hynot
          rw [hDdel]
          have hy_item : y ≠ item := by
            rintro rfl
            exact hynot (List.mem_cons_self ..)
          have hyK : y ∉ ch.flatMap (subtreeF m h) :=
            fun hk => hynot (List.mem_cons_of_mem _ hk)
          have e1 : hD y = h1 y := by
            rw [hD_def]
            exact modifyItem_ne h1 slf _ hy
          have e2 : h1 y = hfold y := by
            rw [h1_def]
            exact modifyItem_ne hfold item _ hy_item
          have e3 : hfold y = h y :=
            FC y hy_item (fun c hc hyc =>
              hyK (hchunk_subK c (by simpa using hc) y hyc))
          rw [e1, e2, e3]

/-! ## C1 — the deletion cascade -/

/-- C1, counterexample: in `treeHeap` the file 2 is a descendant of
directory 1, yet after `root.delete(1)` cascades it carries no
tombstone — the JS `File` class has no `deleted` property and the
cascade only sets the flag on directories — so "every descendant of `d`
ends with `deleted == true`" fails at the file, even though the file is
removed from its former parent's children. -/
theorem delete_file_flag_cex :
    (2 : Id) ∈ subtreeF 4 treeHeap 1 ∧
    isDirIn treeHeap 2 = false ∧
    deletedIn (deleteF 4 treeHeap 0 1) 2 = false ∧
    childIdsOf (deleteF 4 treeHeap 0 1) 1 = [] := by
  refine ⟨by decide, by decide, by decide, by decide⟩

/-- C1, amended: for any directory `a` deleted from its parent `slf`
over a well-shaped heap, and any item `d` in `a`'s subtree, the cascade
leaves every member `x` of `d`'s subtree tombstoned whenever `x` is a
directory (files have no `deleted` flag to set), and removes `x` from
the child list of `slf` and of every node of `a`'s subtree — in
particular from its former parent's children. The cascade snapshots the
sorted child list before recursing, tombstones a directory after its
children, and removes by identity (embodied by `deleteF`). -/
theorem delete_cascades (n : Nat) (h : Heap) (slf a : Id)
    (hok : okF n h a = true)
    (hslf : slf ∉ subtreeF n h a)
    (hnd : (subtreeF n h a).Nodup)
    (hnodes : NodesOk h (slf :: subtreeF n h a)) :
    ∀ d ∈ subtreeF n h a, ∀ x ∈ subtreeF n h d,
      (isDirIn h x = true → deletedIn (deleteF n h slf a) x = true) ∧
      x ∉ childIdsOf (deleteF n h slf a) slf ∧
      (∀ p ∈ subtreeF n h a, x ∉ childIdsOf (deleteF n h slf a) p) := by
  intro d hd x hx
  have hxa : x ∈ subtreeF n h a := subtree_trans n h a d x hok hd hx
  obtain ⟨ca, cb, _, _⟩ := deleteF_cascadeAux n h slf a hok hslf hnd hnodes
  exact ⟨ca x hxa, cb x hxa slf (Or.inl rfl),
    fun p hp => cb x hxa p (Or.inr hp)⟩

/-- C1, witness for the amended claim: deleting directory 1 from root 0
in `treeHeap` tombstones the nested directory 3 (a member of directory
1's subtree) and removes it from every family child list. -/
theorem delete_cascades_witness :
    (isDirIn treeHeap 3 = true →
      deletedIn (deleteF 4 treeHeap 0 1) 3 = true) ∧
    (3 : Id) ∉ childIdsOf (deleteF 4 treeHeap 0 1) 0 ∧
    (∀ p ∈ subtreeF 4 treeHeap 1,
      (3 : Id) ∉ childIdsOf (deleteF 4 treeHeap 0 1) p) :=
  delete_cascades 4 treeHeap 0 1 (by decide) (by decide) (by decide)
    ⟨by decide, by decide⟩ 1 (by decide) 3 (by decide)

end FileExplorer
